import Mathlib

/-!
A verification development for a small retrieval-augmented-generation (RAG)
server (`server/app.py`).  The Python source is shallowly embedded: the pure
helpers (`chunk_text`, `read_file_to_text`, `make_prompt`, the top-k clamp,
the source-list assembly) are translated to Lean functions; the process-wide
mutable state (`docs`, `embs`, `index`) becomes an explicit `ServerState`
threaded through the four endpoint operations; remote collaborators (OpenAI
embeddings and chat completion, the pypdf / python-docx / textract parsers,
the tiktoken tokenizer) become oracle parameters, with exceptions modelled
as `Except`.  Floating-point vector arithmetic is modelled in exact rational
arithmetic, with cosine similarity living in `ℝ`.
-/

namespace RAG

/-! ### Python string primitives

Python `str` operations used by the source (`.strip()`, `.lower()`,
`.endswith()`, slicing `[:n]`) are modelled on the underlying character
list of a Lean `String`, so that they compute by kernel reduction.  Python
strips a slightly larger Unicode whitespace set than `Char.isWhitespace`;
the difference is irrelevant here. -/

/-- Python `s.strip()`: drop leading and trailing whitespace. -/
def pyStrip (s : String) : String :=
  ⟨((s.data.dropWhile Char.isWhitespace).reverse.dropWhile Char.isWhitespace).reverse⟩

/-- Python `s.lower()` (ASCII case folding, as used on file names). -/
def pyLower (s : String) : String := ⟨s.data.map Char.toLower⟩

/-- Python `s.endswith(t)`. -/
def pyEndsWith (s t : String) : Bool :=
  s.data.drop (s.data.length - t.data.length) == t.data

/-- Python `s[:n]` on a string: the first `n` characters. -/
def pyTake (s : String) (n : Nat) : String := ⟨s.data.take n⟩

/-! ### Configuration constants (`app.py` lines 20-22) -/

def CHUNK_TOKENS : Nat := 400

def CHUNK_OVERLAP : Nat := 60

def TOP_K_DEFAULT : Int := 6

/-! ### Chunker (`chunk_text`, `app.py` lines 76-85)

`tiktoken.get_encoding("cl100k_base")` is an external, deterministic
tokenizer; it is a parameter of the model, a pair of `encode`/`decode`
functions on token-id lists. -/

/-- The tiktoken encoder: a fixed deterministic pair of `encode` and
`decode` functions over token ids. -/
structure Tokenizer where
  encode : String → List Nat
  decode : List Nat → String

/-- The `while i < len(tokens)` loop of `chunk_text`: collect the decoded
window of `CHUNK_TOKENS` tokens at offset `i`, then advance by
`max 1 (CHUNK_TOKENS - CHUNK_OVERLAP)`. -/
def chunkLoop (tok : Tokenizer) (tokens : List Nat) (i : Nat) : List String :=
  if _h : i < tokens.length then
    tok.decode ((tokens.drop i).take CHUNK_TOKENS) ::
      chunkLoop tok tokens (i + max 1 (CHUNK_TOKENS - CHUNK_OVERLAP))
  else []
termination_by tokens.length - i
decreasing_by
  have : 1 ≤ max 1 (CHUNK_TOKENS - CHUNK_OVERLAP) := le_max_left _ _
  omega

/-- `chunk_text` from the source: tokenize, window, then
`[c.strip() for c in chunks if c.strip()]`. -/
def chunk_text (tok : Tokenizer) (text : String) : List String :=
  let chunks := chunkLoop tok (tok.encode text) 0
  (chunks.filter (fun c => pyStrip c != "")).map pyStrip

/-- Reference chunker, stated from the spec sentence: encode the text; take
windows of 400 tokens at offsets `0, s, 2*s, ...` with
`s = max 1 (400 - 60) = 340` while the offset is below the token count;
decode each window; strip leading and trailing whitespace; drop windows
that are empty after trimming. -/
def chunkRef (tok : Tokenizer) (text : String) : List String :=
  let tokens := tok.encode text
  let s := max 1 (400 - 60)
  ((List.range ((tokens.length + s - 1) / s)).map
      (fun k => pyStrip (tok.decode ((tokens.drop (k * s)).take 400)))).filter
    (fun c => c != "")

/-! ### Text extraction (`read_file_to_text`, `app.py` lines 43-74)

The pypdf, python-docx and textract libraries are external collaborators.
Each parser entry point can raise (modelled as `Except.error`); the source
wraps only the per-page `p.extract_text()` calls in `try/except`, not the
parser constructors. -/

/-- A parsed PDF: its page list. A page's `extract_text()` either raises
(`Except.error`), returns `None` (`Except.ok none`), or returns text. -/
structure PdfDocument where
  pages : List (Except String (Option String))

/-- A parsed DOCX document: paragraph texts, and table cell texts by
table and row. -/
structure DocxDocument where
  paragraphs : List String
  tables : List (List (List String))

/-- The external extraction collaborators: `bytes.decode("utf-8",
errors="ignore")` (total), `PdfReader`, `docx.Document` and
`textract.process` (each may raise), plus the `HAS_TEXTRACT` flag. -/
structure ExtractLibs where
  decodeTxt : List Nat → String
  pdfRead : List Nat → Except String PdfDocument
  docxRead : List Nat → Except String DocxDocument
  hasTextract : Bool
  textract : List Nat → Except String String

/-- `read_file_to_text` from the source. A raised exception is
`Except.error`; per-page PDF extraction failures are caught and replaced
by the empty string, exactly as in the source's `try/except`. -/
def read_file_to_text (libs : ExtractLibs) (file_bytes : List Nat) (name : String) :
    Except String String :=
  let n := pyLower name
  if pyEndsWith n ".txt" || pyEndsWith n ".md" then
    .ok (libs.decodeTxt file_bytes)
  else if pyEndsWith n ".pdf" then
    match libs.pdfRead file_bytes with
    | .error e => .error e
    | .ok pdf =>
        .ok (String.intercalate "\n\n" (pdf.pages.map (fun p =>
          match p with
          | .error _ => ""
          | .ok none => ""
          | .ok (some t) => t)))
  else if pyEndsWith n ".docx" then
    match libs.docxRead file_bytes with
    | .error e => .error e
    | .ok d =>
        let parts := d.paragraphs.filter (fun p => p != "") ++
          d.tables.flatMap (fun table => table.map (fun row =>
            String.intercalate "\t" (row.filter (fun c => c != ""))))
        .ok (String.intercalate "\n" parts)
  else if pyEndsWith n ".doc" then
    if !libs.hasTextract then .ok ""
    else
      match libs.textract file_bytes with
      | .error e => .error e
      | .ok t => .ok t
  else .ok ""

/-- The spec's claim about `extract_text`, stated as written: for every
input bytes and filename (and every behaviour of the external parsers) the
function returns a string and never raises. -/
def extractNeverRaises : Prop :=
  ∀ (libs : ExtractLibs) (b : List Nat) (name : String),
    ∃ t, read_file_to_text libs b name = .ok t

/-! ### Vectors and the embedding collaborator (`embed_texts`,
`app.py` lines 87-94)

Embedding vectors are modelled as rational-valued lists (exact arithmetic
in place of float32). -/

/-- Inner product of two vectors (componentwise, NumPy style). -/
def dot : List ℚ → List ℚ → ℚ
  | x :: xs, y :: ys => x * y + dot xs ys
  | _, _ => 0

/-- Sum of squares of a vector: `dot v v`, the squared L2 norm. -/
def sumsq (v : List ℚ) : ℚ := dot v v

/-- The OpenAI embeddings endpoint: a remote call on a batch of texts that
may fail, and that returns one vector per input text in input order (the
provider contract the spec states). -/
structure EmbedOracle where
  call : List String → Except String (List (List ℚ))
  length_ok : ∀ ts vs, call ts = .ok vs → vs.length = ts.length

/-- `embed_texts` from the source: issue batches of `B = 1000` texts
sequentially (`for i in range(0, len(texts), B)`), concatenating the
returned vectors; a failing batch call aborts the whole operation. -/
def embed_texts (ora : EmbedOracle) (texts : List String) :
    Except String (List (List ℚ)) :=
  if _h : texts = [] then .ok []
  else do
    let v ← ora.call (texts.take 1000)
    let rest ← embed_texts ora (texts.drop 1000)
    return v ++ rest
termination_by texts.length
decreasing_by
  rcases texts with _ | ⟨t, ts⟩
  · simp at _h
  · simp only [List.length_drop, List.length_cons]; omega

/-! ### Vector index (`build_faiss` and `search`, `app.py` lines 96-106)

Modelled from the spec: faiss's `IndexFlatIP` over `normalize_L2`-ed
vectors is an external library whose code is not part of this repository.
Per the spec (section 4.3) it performs exact flat inner-product search over
the unit-normalized stored vectors, returning the `top_k` highest-scoring
stored positions in descending score order with ties broken by lowest
stored position, and pads with `-1` when `top_k` exceeds the number of
stored vectors.  In exact arithmetic the inner product of the two
unit-normalized vectors is the cosine similarity of the raw vectors, so
the model keeps the raw vectors and ranks positions by exact cosine
similarity (theorem `dotR_normalize` below proves the two agree); the
comparison `a / sqrt b < c / sqrt d` is decided in ℚ by comparing the
sign-preserving squares `a * |a| * d` and `c * |c| * b`. -/

/-- The flat index: the stored vector list (`ntotal = vecs.length`). -/
structure FaissIndex where
  vecs : List (List ℚ)
  deriving DecidableEq

/-- `build_faiss`: normalize and store the embedding matrix.  In this exact
model normalization is folded into the search-time scoring. -/
def build_faiss (embeddings : List (List ℚ)) : FaissIndex := ⟨embeddings⟩

/-- The ranking key of stored position `j` against query `q`: the pair
`(dot q v_j, sumsq q * sumsq v_j)`, denoting the score
`dot q v_j / sqrt (sumsq q * sumsq v_j)`, i.e. the cosine similarity. -/
def scoreKey (q : List ℚ) (stored : List (List ℚ)) (j : Nat) : ℚ × ℚ :=
  (dot q (stored.getD j []), sumsq q * sumsq (stored.getD j []))

/-- `j` ranks no worse than `j'`: strictly higher cosine score, or equal
score and lower-or-equal stored position.  `a / sqrt b` against
`c / sqrt d` (with `b, d > 0`) is decided by the sign-preserving squares
`a * |a| * d` against `c * |c| * b`. -/
def rankLe (q : List ℚ) (stored : List (List ℚ)) (j j' : Nat) : Bool :=
  let a := scoreKey q stored j
  let b := scoreKey q stored j'
  decide (b.1 * |b.1| * a.2 < a.1 * |a.1| * b.2) ||
    (decide (a.1 * |a.1| * b.2 = b.1 * |b.1| * a.2) && decide (j ≤ j'))

/-- Insert `a` into `l` before the first element it ranks no worse than. -/
def insertLe {α : Type} (le : α → α → Bool) (a : α) : List α → List α
  | [] => [a]
  | b :: l => if le a b then a :: b :: l else b :: insertLe le a l

/-- Insertion sort by a boolean comparison. -/
def insSort {α : Type} (le : α → α → Bool) : List α → List α
  | [] => []
  | a :: l => insertLe le a (insSort le l)

/-- Modelled from the spec: the result row `I[0]` of
`faiss.IndexFlatIP.search` — all stored positions sorted by descending
cosine score with ties broken by lowest position, truncated to `top_k`
entries and padded with `-1` when `top_k` exceeds the number of stored
vectors. -/
def faissSearch (stored : List (List ℚ)) (q : List ℚ) (top_k : Nat) : List Int :=
  ((insSort (rankLe q stored) (List.range stored.length)).take top_k).map
      (fun j : Nat => (j : Int)) ++
    List.replicate (top_k - stored.length) (-1)

/-- `search` from the source: normalize a copy of the query and run the
index search (normalization is folded into the cosine scoring of
`faissSearch`); returns the index row `I[0]`. -/
def search (idx : FaissIndex) (q_vec : List ℚ) (top_k : Nat) : List Int :=
  faissSearch idx.vecs q_vec top_k

/-- Cosine similarity of two raw vectors, as a real number:
`dot q v / sqrt (sumsq q * sumsq v)`. -/
noncomputable def cosSim (q v : List ℚ) : ℝ :=
  ((dot q v : ℚ) : ℝ) / Real.sqrt ((sumsq q * sumsq v : ℚ) : ℝ)

/-- Real-valued inner product (for normalized vectors). -/
noncomputable def dotR : List ℝ → List ℝ → ℝ
  | x :: xs, y :: ys => x * y + dotR xs ys
  | _, _ => 0

/-- `faiss.normalize_L2`: scale a vector to unit L2 norm. -/
noncomputable def normalize (v : List ℚ) : List ℝ :=
  v.map (fun x : ℚ => (x : ℝ) / Real.sqrt ((sumsq v : ℚ) : ℝ))

/-! ### Prompt assembly and responses (`make_prompt`, `ask` response,
`app.py` lines 108-125 and 192-196) -/

/-- `make_prompt` from the source: the numbered, source-labelled context
block and the system/user message pair. -/
def make_prompt (question : String) (hits : List (String × String)) :
    List (String × String) :=
  let sources_text := String.intercalate "\n\n"
    (hits.enum.map (fun p =>
      "[" ++ toString (p.1 + 1) ++ "] (" ++ p.2.1 ++ ")\n" ++ p.2.2))
  let system := "You are a helpful RAG assistant. " ++
    "Answer the user\x27s question using ONLY the provided context if possible. " ++
    "If the answer is not in the context, say you don\x27t have enough information. " ++
    "Cite sources as [#] where # is the context index."
  let user := "Question:\n" ++ question ++ "\n\nContext chunks:\n" ++ sources_text ++
    "\n\nInstructions:\n- If you use multiple chunks, cite like [1][3].\n- Be concise and precise."
  [("system", system), ("user", user)]

/-- A JSON scalar value appearing in a source entry. -/
inductive Val where
  | int (i : Int)
  | str (s : String)
  deriving DecidableEq

/-- One entry of the `sources` array: the key/value pairs of the dict
literal, in source order. -/
abbrev SourceEntry := List (String × Val)

/-- The `sources` list built by `ask`:
`{"id": i + 1, "file": s, "preview": t[:300]}` for each hit. -/
def sourcesOf (hits : List (String × String)) : List SourceEntry :=
  hits.enum.map (fun p =>
    [("id", Val.int ((p.1 : Int) + 1)),
     ("file", Val.str p.2.1),
     ("preview", Val.str (pyTake p.2.2 300))])

/-- The key list the spec claims for a source entry (`{id, source,
preview}`), stated from the spec words. -/
def specSourceKeys : List String := ["id", "source", "preview"]

/-- The request body of `/ask`. -/
structure AskPayload where
  question : String
  top_k : Option Int
  deriving DecidableEq

/-- How many embedding and generation remote calls an `ask` issued. -/
structure Calls where
  embed : Nat
  gen : Nat
  deriving DecidableEq

/-- The `/ask` response: a normal `{status, answer, sources}` body, the
`{"status": "no_question"}` body, or a propagated exception. -/
inductive AskResult where
  | answer (answer : String) (sources : List SourceEntry)
  | noQuestion
  | failed (e : String)
  deriving DecidableEq

/-- The fixed insufficient-information answer text from the source. -/
def insufficientAnswer : String :=
  "I don\x27t have enough information to answer. " ++
  "Please upload documents and click Build Index."

/-- The message of the zero-chunk `/build` response from the source. -/
def noDocsMessage : String :=
  "No documents to index. Please upload files and try again."

/-- The `/build` response: `{status, chunks}` (with the no-documents
message when the store was empty), or a propagated exception. -/
inductive BuildResult where
  | ok (chunks : Nat) (message : Option String)
  | failed (e : String)
  deriving DecidableEq

/-- The `/upload` response body. -/
structure UploadSummary where
  files : Nat
  chunksAdded : Nat
  totalChunks : Nat
  deriving DecidableEq

/-! ### The process-wide state and the four endpoint operations
(`app.py` lines 39-41 and 127-205) -/

/-- The module-level mutable state: `docs`, `embs`, `index`. -/
structure ServerState where
  docs : List (String × String)
  embs : Option (List (List ℚ))
  index : Option FaissIndex
  deriving DecidableEq

/-- The state at process start: empty store, no embeddings, no index. -/
def initState : ServerState := ⟨[], none, none⟩

/-- Python `docs[j]` with an `Int` subscript: negative indices count from
the end; out of range raises (`none`). -/
def pyIndex {α : Type} (l : List α) (j : Int) : Option α :=
  let i : Int := if j < 0 then (l.length : Int) + j else j
  if i < 0 then none else l.get? i.toNat

/-- Evaluate `f` over a list, propagating the first raised exception, as a
Python list comprehension does. -/
def optList {α β : Type} (f : α → Option β) : List α → Option (List β)
  | [] => some []
  | a :: l =>
    match f a with
    | none => none
    | some b =>
      match optList f l with
      | none => none
      | some bs => some (b :: bs)

/-- The effective `top_k` computed by `ask`:
`top_k = payload.top_k or TOP_K_DEFAULT` (Python `or`: `None` and `0` are
falsy) followed by `top_k = max(1, min(top_k, len(docs)))`. -/
def effTopK (req : Option Int) (n : Nat) : Int :=
  let t : Int := match req with
    | none => TOP_K_DEFAULT
    | some t => if t = 0 then TOP_K_DEFAULT else t
  max 1 (min t (n : Int))

/-- The `/ask` endpoint.  `eOra` is the query-embedding remote call
(`client.embeddings.create` on `[question]`), `gOra` the chat-completion
remote call; the returned `Calls` counts how many of each were issued. -/
def ask (eOra : String → Except String (List ℚ))
    (gOra : List (String × String) → Except String String)
    (payload : AskPayload) (s : ServerState) :
    ServerState × AskResult × Calls :=
  match s.index with
  | none => (s, .answer insufficientAnswer [], ⟨0, 0⟩)
  | some idx =>
    if s.docs = [] then (s, .answer insufficientAnswer [], ⟨0, 0⟩)
    else if pyStrip payload.question = "" then (s, .noQuestion, ⟨0, 0⟩)
    else
      match eOra payload.question with
      | .error e => (s, .failed e, ⟨1, 0⟩)
      | .ok q_emb =>
        let top_k := effTopK payload.top_k s.docs.length
        let I := search idx q_emb top_k.toNat
        match optList (pyIndex s.docs) I with
        | none => (s, .failed "IndexError", ⟨1, 0⟩)
        | some hits =>
          match gOra (make_prompt payload.question hits) with
          | .error e => (s, .failed e, ⟨1, 1⟩)
          | .ok answer => (s, .answer answer (sourcesOf hits), ⟨1, 1⟩)

/-- The per-file loop of `/upload`: extract, skip empty-after-strip texts,
chunk, and append `(filename, chunk)` records to `docs`; an extraction
exception aborts the loop, keeping the records appended so far (the
in-place `docs.append` mutations survive the exception). -/
def uploadLoop (libs : ExtractLibs) (tok : Tokenizer) :
    List (String × List Nat) → List (String × String) → Nat →
    List (String × String) × Nat × Option String
  | [], docs, added => (docs, added, none)
  | (name, b) :: rest, docs, added =>
    match read_file_to_text libs b name with
    | .error e => (docs, added, some e)
    | .ok text =>
      if pyStrip text = "" then uploadLoop libs tok rest docs added
      else
        let cs := chunk_text tok text
        uploadLoop libs tok rest (docs ++ cs.map (fun c => (name, c))) (added + cs.length)

/-- The `/upload` endpoint. -/
def upload (libs : ExtractLibs) (tok : Tokenizer)
    (files : List (String × List Nat)) (s : ServerState) :
    ServerState × Except String UploadSummary :=
  let r := uploadLoop libs tok files s.docs 0
  ({ s with docs := r.1 },
   match r.2.2 with
   | none => .ok ⟨files.length, r.2.1, r.1.length⟩
   | some e => .error e)

/-- The `/build` endpoint: trivial success on an empty store; otherwise
embed every chunk text in store order and replace `embs` and `index`.  A
failing embedding call raises before either global assignment executes, so
the prior state is returned unchanged. -/
def build (ora : EmbedOracle) (s : ServerState) : ServerState × BuildResult :=
  if s.docs = [] then (s, .ok 0 (some noDocsMessage))
  else
    let texts := s.docs.map Prod.snd
    match embed_texts ora texts with
    | .error e => (s, .failed e)
    | .ok vecs =>
      ({ s with embs := some vecs, index := some (build_faiss vecs) }, .ok texts.length none)

/-- The `/reset` endpoint: clear everything. -/
def reset (_s : ServerState) : ServerState × Unit := (⟨[], none, none⟩, ())

/-- States reachable from the initial empty state by any sequence of the
four endpoint operations, with arbitrary collaborator behaviour. -/
inductive Reachable : ServerState → Prop where
  | init : Reachable initState
  | uploadStep (libs tok files) {s} :
      Reachable s → Reachable (upload libs tok files s).1
  | buildStep (ora) {s} : Reachable s → Reachable (build ora s).1
  | askStep (eOra gOra payload) {s} :
      Reachable s → Reachable (ask eOra gOra payload s).1
  | resetStep {s} : Reachable s → Reachable (reset s).1

/-- The store/index consistency invariant: a present index was built from
a non-empty store, and uploads since can only have grown the store. -/
def StoreInv (s : ServerState) : Prop :=
  ∀ idx, s.index = some idx →
    s.docs ≠ [] ∧ 1 ≤ idx.vecs.length ∧ idx.vecs.length ≤ s.docs.length

/-- The C10 invariant as stated: a present index implies a non-empty store. -/
def IdxDocs (s : ServerState) : Prop := s.index ≠ none → s.docs ≠ []

/-! ### Concrete collaborators and states used to instantiate theorems -/

/-- A concrete tokenizer: nonempty text encodes to one token, every token
list decodes to `"hello"`. -/
def wTok : Tokenizer := ⟨fun s => if s = "" then [] else [0], fun _ => "hello"⟩

/-- A concrete tokenizer whose decoded windows are whitespace-only. -/
def wTokWs : Tokenizer := ⟨fun _ => [0], fun _ => " "⟩

/-- Concrete extraction collaborators: text decodes to `"hello"`, every
parser raises, textract is absent. -/
def wLibs : ExtractLibs :=
  ⟨fun _ => "hello", fun _ => .error "EOF marker not found",
   fun _ => .error "File is not a zip file", false, fun _ => .error "textract failed"⟩

/-- A concrete embedding collaborator returning the vector `[1]` for every
text. -/
def wEmb : EmbedOracle :=
  ⟨fun ts => .ok (ts.map (fun _ => [1])), by
    intro ts vs h
    cases h
    simp⟩

/-- A concrete embedding collaborator whose every batch call fails. -/
def wFailEmb : EmbedOracle :=
  ⟨fun _ => .error "rate limit", by intro ts vs h; exact Except.noConfusion h⟩

/-- A concrete query-embedding call. -/
def wE : String → Except String (List ℚ) := fun _ => .ok [1]

/-- A concrete generation call. -/
def wG : List (String × String) → Except String String := fun _ => .ok "ok"

/-- Concrete extraction collaborators whose parsers all succeed (the PDF
has a failing page, a `None` page and a text page). -/
def wLibsOk : ExtractLibs :=
  ⟨fun _ => "hello", fun _ => .ok ⟨[.error "boom", .ok none, .ok (some "text")]⟩,
   fun _ => .ok ⟨["p"], [[["c"]]]⟩, true, fun _ => .ok "doc text"⟩

/-- A one-document state with no index, used to exercise build failure. -/
def wDocState : ServerState := ⟨[("a.txt", "x")], none, none⟩

/-- The state after uploading one `.txt` file to the empty state. -/
def wS1 : ServerState := (upload wLibs wTok [("a.txt", [104])] initState).1

/-- The state after building on `wS1`. -/
def wS2 : ServerState := (build wEmb wS1).1

/-- The literal value of `wS2`: one chunk, one embedding, a one-vector
index. -/
def wS2Lit : ServerState := ⟨[("a.txt", "hello")], some [[1]], some ⟨[[1]]⟩⟩

/-! ### Chunker lemmas -/

theorem stride_eq : max 1 (CHUNK_TOKENS - CHUNK_OVERLAP) = 340 := by decide

theorem window_lt_iff (len j : Nat) : j * 340 < len ↔ j < (len + 340 - 1) / 340 := by
  omega

set_option maxRecDepth 4000 in
/-- The `while` loop of `chunk_text`, started at offset `j * 340`, yields
exactly the decoded windows at offsets `j * 340, (j+1) * 340, ...` below
the token count. -/
theorem chunkLoop_eq (tok : Tokenizer) (tokens : List Nat) :
    ∀ m j, (tokens.length + 340 - 1) / 340 - j = m →
      chunkLoop tok tokens (j * 340) =
        (List.range m).map
          (fun k => tok.decode ((tokens.drop ((j + k) * 340)).take 400)) := by
  intro m
  induction m with
  | zero =>
    intro j hj
    rw [chunkLoop]
    have : ¬ j * 340 < tokens.length := by
      rw [window_lt_iff]; omega
    simp [stride_eq, this]
  | succ m ih =>
    intro j hj
    rw [chunkLoop]
    have hlt : j * 340 < tokens.length := by
      rw [window_lt_iff]; omega
    rw [dif_pos hlt]
    have hstep : j * 340 + max 1 (CHUNK_TOKENS - CHUNK_OVERLAP) = (j + 1) * 340 := by
      rw [stride_eq]; ring
    rw [hstep, ih (j + 1) (by omega), List.range_succ_eq_map, List.map_cons,
      List.map_map]
    congr 1
    apply List.map_congr_left
    intro k _
    have h2 : j + 1 + k = j + (k + 1) := by omega
    rw [h2]
    rfl

theorem chunk_filter_strip (l : List String) :
    (l.filter (fun c => pyStrip c != "")).map pyStrip =
      (l.map pyStrip).filter (fun c => c != "") := by
  induction l with
  | nil => rfl
  | cons a l ih =>
    cases h : (pyStrip a != "") <;>
      simp [List.filter_cons, h, ih]

/-- C3: `chunk_text` coincides with the spec's reference definition
(windows of 400 tokens at stride `max 1 (400 - 60) = 340`, decoded,
trimmed, empty-after-trim windows dropped); token-less input yields no
chunks, and so does input all of whose decoded windows trim to empty (in
particular whitespace-only input under a faithful tokenizer). -/
theorem C3_chunker (tok : Tokenizer) (text : String) :
    chunk_text tok text = chunkRef tok text
    ∧ (tok.encode text = [] → chunk_text tok text = [])
    ∧ ((∀ c ∈ chunkLoop tok (tok.encode text) 0, pyStrip c = "") →
        chunk_text tok text = []) := by
  refine ⟨?_, ?_, ?_⟩
  · have hs : max 1 (400 - 60) = 340 := by decide
    have h0 : chunkLoop tok (tok.encode text) 0 =
        (List.range (((tok.encode text).length + 340 - 1) / 340)).map
          (fun k => tok.decode (((tok.encode text).drop (k * 340)).take 400)) := by
      simpa using chunkLoop_eq tok (tok.encode text)
        (((tok.encode text).length + 340 - 1) / 340) 0 (by omega)
    simp only [chunk_text, chunkRef, hs, h0, chunk_filter_strip, List.map_map]
    rfl
  · intro h
    simp only [chunk_text, h]
    rw [chunkLoop]
    simp
  · intro h
    simp only [chunk_text]
    rw [List.filter_eq_nil_iff.mpr, List.map_nil]
    intro c hc
    simp [h c hc]

theorem C3_chunker_witness :
    (wTok.encode "" = [] ∧ chunk_text wTok "" = [])
    ∧ ((∀ c ∈ chunkLoop wTokWs (wTokWs.encode "   ") 0, pyStrip c = "")
        ∧ chunk_text wTokWs "   " = []) := by
  have he : wTok.encode "" = [] := by decide
  have hloop : chunkLoop wTokWs (wTokWs.encode "   ") 0 = [" "] := by
    rw [chunkLoop]
    norm_num [wTokWs]
    rw [chunkLoop]
    norm_num [stride_eq]
  have hw : ∀ c ∈ chunkLoop wTokWs (wTokWs.encode "   ") 0, pyStrip c = "" := by
    rw [hloop]
    intro c hc
    simp only [List.mem_singleton] at hc
    subst hc
    decide
  exact ⟨⟨he, (C3_chunker wTok "").2.1 he⟩, ⟨hw, (C3_chunker wTokWs "   ").2.2 hw⟩⟩

/-! ### Extraction lemmas (C7) -/

/-- C7 counterexample: as stated, "`extract_text` never raises to its
caller" is false — uploading bytes that the PDF parser rejects (e.g. the
empty byte string, on which `pypdf.PdfReader` raises) under the name
`"a.pdf"` propagates the parser's exception, because only the per-page
extraction calls are wrapped in `try/except`, not the `PdfReader`
constructor. -/
theorem C7_counterexample : ¬ extractNeverRaises := by
  intro h
  obtain ⟨t, ht⟩ := h wLibs [] "a.pdf"
  have hr : read_file_to_text wLibs [] "a.pdf" = .error "EOF marker not found" := rfl
  rw [hr] at ht
  exact Except.noConfusion ht

/-- C7 amended: `read_file_to_text` returns a string (never raises) on
`.txt`/`.md` names, on unsupported extensions, on `.doc` without textract,
and whenever the relevant parser call succeeds — in the PDF case even if
every per-page extraction fails (those failures are swallowed); but a
parser-constructor failure propagates to the caller. -/
theorem C7_extract_amended :
    (∀ libs b name,
      (pyEndsWith (pyLower name) ".txt" || pyEndsWith (pyLower name) ".md") = true →
      read_file_to_text libs b name = .ok (libs.decodeTxt b))
    ∧ (∀ libs b name pdf,
      (pyEndsWith (pyLower name) ".txt" || pyEndsWith (pyLower name) ".md") = false →
      pyEndsWith (pyLower name) ".pdf" = true →
      libs.pdfRead b = .ok pdf →
      ∃ t, read_file_to_text libs b name = .ok t)
    ∧ (∀ libs b name d,
      (pyEndsWith (pyLower name) ".txt" || pyEndsWith (pyLower name) ".md") = false →
      pyEndsWith (pyLower name) ".pdf" = false →
      pyEndsWith (pyLower name) ".docx" = true →
      libs.docxRead b = .ok d →
      ∃ t, read_file_to_text libs b name = .ok t)
    ∧ (∀ libs b name,
      (pyEndsWith (pyLower name) ".txt" || pyEndsWith (pyLower name) ".md") = false →
      pyEndsWith (pyLower name) ".pdf" = false →
      pyEndsWith (pyLower name) ".docx" = false →
      pyEndsWith (pyLower name) ".doc" = true →
      libs.hasTextract = false →
      read_file_to_text libs b name = .ok "")
    ∧ (∀ libs b name t,
      (pyEndsWith (pyLower name) ".txt" || pyEndsWith (pyLower name) ".md") = false →
      pyEndsWith (pyLower name) ".pdf" = false →
      pyEndsWith (pyLower name) ".docx" = false →
      pyEndsWith (pyLower name) ".doc" = true →
      libs.hasTextract = true →
      libs.textract b = .ok t →
      read_file_to_text libs b name = .ok t)
    ∧ (∀ libs b name,
      (pyEndsWith (pyLower name) ".txt" || pyEndsWith (pyLower name) ".md") = false →
      pyEndsWith (pyLower name) ".pdf" = false →
      pyEndsWith (pyLower name) ".docx" = false →
      pyEndsWith (pyLower name) ".doc" = false →
      read_file_to_text libs b name = .ok "") := by
  refine ⟨?_, ?_, ?_, ?_, ?_, ?_⟩
  · intro libs b name h1
    simp [read_file_to_text, h1]
  · intro libs b name pdf h1 h2 hp
    simp [read_file_to_text, h1, h2, hp]
  · intro libs b name d h1 h2 h3 hd
    simp [read_file_to_text, h1, h2, h3, hd]
  · intro libs b name h1 h2 h3 h4 hnt
    simp [read_file_to_text, h1, h2, h3, h4, hnt]
  · intro libs b name t h1 h2 h3 h4 hnt htx
    simp [read_file_to_text, h1, h2, h3, h4, hnt, htx]
  · intro libs b name h1 h2 h3 h4
    simp [read_file_to_text, h1, h2, h3, h4]

theorem C7_extract_amended_witness :
    (read_file_to_text wLibsOk [] "notes.txt" = .ok "hello")
    ∧ (∃ t, read_file_to_text wLibsOk [] "paper.pdf" = .ok t)
    ∧ (∃ t, read_file_to_text wLibsOk [] "memo.docx" = .ok t)
    ∧ (read_file_to_text wLibs [] "old.doc" = .ok "")
    ∧ (read_file_to_text wLibsOk [] "old.doc" = .ok "doc text")
    ∧ (read_file_to_text wLibsOk [] "image.png" = .ok "") := by
  refine ⟨?_, ?_, ?_, ?_, ?_, ?_⟩
  · exact C7_extract_amended.1 wLibsOk [] "notes.txt" (by decide)
  · exact C7_extract_amended.2.1 wLibsOk [] "paper.pdf"
      ⟨[.error "boom", .ok none, .ok (some "text")]⟩ (by decide) (by decide) rfl
  · exact C7_extract_amended.2.2.1 wLibsOk [] "memo.docx"
      ⟨["p"], [[["c"]]]⟩ (by decide) (by decide) (by decide) rfl
  · exact C7_extract_amended.2.2.2.1 wLibs [] "old.doc" (by decide) (by decide) (by decide)
      (by decide) rfl
  · exact C7_extract_amended.2.2.2.2.1 wLibsOk [] "old.doc" "doc text" (by decide) (by decide)
      (by decide) (by decide) rfl rfl
  · exact C7_extract_amended.2.2.2.2.2 wLibsOk [] "image.png" (by decide) (by decide) (by decide)
      (by decide)

/-! ### Embedding and build lemmas (C5) -/

theorem embed_texts_nil (ora : EmbedOracle) : embed_texts ora [] = .ok [] := by
  rw [embed_texts]
  simp

/-- A successful `embed_texts` returns one vector per input text. -/
theorem embed_texts_length (ora : EmbedOracle) :
    ∀ (n : Nat) (ts : List String) (vs : List (List ℚ)), ts.length ≤ n →
      embed_texts ora ts = .ok vs → vs.length = ts.length := by
  intro n
  induction n with
  | zero =>
    intro ts vs hle h
    have hts : ts = [] := List.length_eq_zero.mp (Nat.le_zero.mp hle)
    subst hts
    rw [embed_texts_nil] at h
    cases h
    rfl
  | succ n ih =>
    intro ts vs hle h
    by_cases hts : ts = []
    · subst hts
      rw [embed_texts_nil] at h
      cases h
      rfl
    · rw [embed_texts, dif_neg hts] at h
      cases hc : ora.call (ts.take 1000) with
      | error e => rw [hc] at h; exact Except.noConfusion h
      | ok v =>
        rw [hc] at h
        cases hr : embed_texts ora (ts.drop 1000) with
        | error e =>
          rw [hr] at h
          exact Except.noConfusion h
        | ok rest =>
          rw [hr] at h
          cases h
          have hv : v.length = (ts.take 1000).length := ora.length_ok _ _ hc
          have hrest : rest.length = (ts.drop 1000).length := by
            have hlen : (ts.drop 1000).length ≤ n := by
              have : ts.length ≥ 1 := by
                cases ts with
                | nil => exact absurd rfl hts
                | cons a l => simp
              simp only [List.length_drop]
              omega
            exact ih (ts.drop 1000) rest hlen hr
          simp only [List.length_append, hv, hrest, List.length_take, List.length_drop]
          omega

/-- C5: if an embedding batch call fails during `build`, the whole build
fails and the prior state (store, embeddings, index) is returned exactly
unchanged — the failing call raises before either global assignment runs. -/
theorem C5_build_failure_atomic (ora : EmbedOracle) (s : ServerState) (e : String)
    (hfail : embed_texts ora (s.docs.map Prod.snd) = .error e) :
    build ora s = (s, .failed e)
    ∧ (build ora s).1.docs = s.docs
    ∧ (build ora s).1.embs = s.embs
    ∧ (build ora s).1.index = s.index := by
  have hmain : build ora s = (s, .failed e) := by
    unfold build
    by_cases hd : s.docs = []
    · rw [hd] at hfail
      simp only [List.map_nil] at hfail
      rw [embed_texts_nil] at hfail
      exact Except.noConfusion hfail
    · rw [if_neg hd]
      simp only [hfail]
  exact ⟨hmain, by rw [hmain], by rw [hmain], by rw [hmain]⟩

theorem C5_build_failure_atomic_witness :
    embed_texts wFailEmb (wDocState.docs.map Prod.snd) = .error "rate limit"
    ∧ build wFailEmb wDocState = (wDocState, .failed "rate limit") := by
  have hfail : embed_texts wFailEmb (wDocState.docs.map Prod.snd) = .error "rate limit" := by
    rw [embed_texts]
    simp [wFailEmb, wDocState, Bind.bind, Except.bind]
  exact ⟨hfail, (C5_build_failure_atomic wFailEmb wDocState "rate limit" hfail).1⟩

/-! ### State-machine lemmas -/

/-- `ask` never mutates the state: every branch returns `s` unchanged. -/
theorem ask_fst (eOra : String → Except String (List ℚ))
    (gOra : List (String × String) → Except String String)
    (p : AskPayload) (s : ServerState) : (ask eOra gOra p s).1 = s := by
  unfold ask
  split
  · rfl
  · split
    · rfl
    · split
      · rfl
      · split
        · rfl
        · dsimp only
          split
          · rfl
          · split <;> rfl

theorem upload_state (libs : ExtractLibs) (tok : Tokenizer)
    (files : List (String × List Nat)) (s : ServerState) :
    (upload libs tok files s).1 =
      { s with docs := (uploadLoop libs tok files s.docs 0).1 } := rfl

/-- The upload loop only appends records to the store. -/
theorem uploadLoop_docs (libs : ExtractLibs) (tok : Tokenizer) :
    ∀ (files : List (String × List Nat)) (docs : List (String × String)) (added : Nat),
      ∃ suf, (uploadLoop libs tok files docs added).1 = docs ++ suf := by
  intro files
  induction files with
  | nil => intro docs added; exact ⟨[], by simp [uploadLoop]⟩
  | cons f rest ih =>
    intro docs added
    obtain ⟨name, b⟩ := f
    unfold uploadLoop
    cases hr : read_file_to_text libs b name with
    | error e => exact ⟨[], by simp⟩
    | ok text =>
      by_cases hstrip : pyStrip text = ""
      · simp only [hstrip, if_pos rfl]
        exact ih docs added
      · simp only [if_neg hstrip]
        obtain ⟨suf, hsuf⟩ := ih (docs ++ (chunk_text tok text).map (fun c => (name, c)))
          (added + (chunk_text tok text).length)
        exact ⟨(chunk_text tok text).map (fun c => (name, c)) ++ suf, by
          rw [hsuf, List.append_assoc]⟩

theorem storeInv_init : StoreInv initState := by
  intro idx h
  exact Option.noConfusion h

theorem storeInv_upload (libs : ExtractLibs) (tok : Tokenizer)
    (files : List (String × List Nat)) (s : ServerState) (h : StoreInv s) :
    StoreInv (upload libs tok files s).1 := by
  intro idx hidx
  rw [upload_state] at hidx ⊢
  obtain ⟨suf, hsuf⟩ := uploadLoop_docs libs tok files s.docs 0
  simp only at hidx
  obtain ⟨hne, h1, h2⟩ := h idx hidx
  simp only [hsuf]
  refine ⟨?_, h1, ?_⟩
  · intro hc
    exact hne (List.append_eq_nil.mp hc).1
  · calc idx.vecs.length ≤ s.docs.length := h2
      _ ≤ (s.docs ++ suf).length := by simp

theorem storeInv_build (ora : EmbedOracle) (s : ServerState) (h : StoreInv s) :
    StoreInv (build ora s).1 := by
  unfold build
  by_cases hd : s.docs = []
  · rw [if_pos hd]; exact h
  · rw [if_neg hd]
    dsimp only
    cases he : embed_texts ora (List.map Prod.snd s.docs) with
    | error e => exact h
    | ok vecs =>
      intro idx hidx
      simp only [Option.some.injEq] at hidx
      have hlen : vecs.length = s.docs.length := by
        have := embed_texts_length ora (List.map Prod.snd s.docs).length
          (List.map Prod.snd s.docs) vecs le_rfl he
        simpa using this
      have hpos : 1 ≤ s.docs.length := by
        cases hdoc : s.docs with
        | nil => exact absurd hdoc hd
        | cons a l => simp
      subst hidx
      exact ⟨hd, by simp [build_faiss, hlen, hpos], by simp [build_faiss, hlen]⟩

theorem storeInv_ask (eOra : String → Except String (List ℚ))
    (gOra : List (String × String) → Except String String)
    (p : AskPayload) (s : ServerState) (h : StoreInv s) :
    StoreInv (ask eOra gOra p s).1 := by
  rw [ask_fst]; exact h

theorem storeInv_reset (s : ServerState) : StoreInv (reset s).1 := by
  intro idx h
  exact Option.noConfusion h

/-- Every reachable state satisfies the store/index invariant. -/
theorem reachable_inv {s : ServerState} (h : Reachable s) : StoreInv s := by
  induction h with
  | init => exact storeInv_init
  | uploadStep libs tok files _ ih => exact storeInv_upload libs tok files _ ih
  | buildStep ora _ ih => exact storeInv_build ora _ ih
  | askStep eOra gOra payload _ ih => exact storeInv_ask eOra gOra payload _ ih
  | resetStep _ _ => exact storeInv_reset _

/-- `ask` on a missing index or an empty store short-circuits to the fixed
insufficient-information response, with no remote call. -/
theorem ask_insufficient (eOra : String → Except String (List ℚ))
    (gOra : List (String × String) → Except String String)
    (p : AskPayload) (s : ServerState) (h : s.index = none ∨ s.docs = []) :
    ask eOra gOra p s = (s, .answer insufficientAnswer [], ⟨0, 0⟩) := by
  unfold ask
  rcases hidx : s.index with _ | idx
  · rfl
  · rcases h with h | h
    · rw [h] at hidx; exact Option.noConfusion hidx
    · simp [h]

/-! ### Concrete trace evaluation -/

theorem chunk_text_wTok : chunk_text wTok "hello" = ["hello"] := by
  have henc : wTok.encode "hello" = [0] := by decide
  have hloop : chunkLoop wTok [0] 0 = ["hello"] := by
    rw [chunkLoop]
    norm_num [wTok]
    rw [chunkLoop]
    norm_num [stride_eq]
  simp only [chunk_text, henc, hloop]
  decide

theorem wS1_eq : wS1 = ⟨[("a.txt", "hello")], none, none⟩ := by
  have h1 : read_file_to_text wLibs [104] "a.txt" = .ok "hello" := rfl
  have hl : uploadLoop wLibs wTok [("a.txt", [104])] [] 0 = ([("a.txt", "hello")], 1, none) := by
    simp only [uploadLoop, h1]
    rw [if_neg (by decide : ¬ pyStrip "hello" = "")]
    rw [chunk_text_wTok]
    simp [uploadLoop]
  rw [wS1, upload_state]
  simp [initState, hl]

theorem wS2_eq : wS2 = wS2Lit := by
  have hemb : embed_texts wEmb ["hello"] = .ok [[1]] := by
    rw [embed_texts]
    simp [wEmb, Bind.bind, Except.bind, embed_texts_nil, pure, Except.pure]
  rw [wS2, wS1_eq]
  simp [build, hemb, build_faiss, wS2Lit]

theorem wS2Lit_reachable : Reachable wS2Lit := by
  have h2 : Reachable wS2 :=
    .buildStep wEmb (.uploadStep wLibs wTok [("a.txt", [104])] .init)
  exact wS2_eq ▸ h2

/-! ### C2, C8, C9, C10 -/

/-- C2: whenever no index exists or the store is empty — in particular in
any state produced by `reset` — `ask` returns the fixed
insufficient-information answer with an empty source list and issues no
embedding or generation call. -/
theorem C2_no_index_insufficient :
    (∀ eOra gOra p s, s.index = none ∨ s.docs = [] →
      ask eOra gOra p s = (s, .answer insufficientAnswer [], ⟨0, 0⟩))
    ∧ (∀ eOra gOra p s₀,
      ask eOra gOra p (reset s₀).1 = ((reset s₀).1, .answer insufficientAnswer [], ⟨0, 0⟩)) :=
  ⟨fun eOra gOra p s h => ask_insufficient eOra gOra p s h,
   fun eOra gOra p s₀ => ask_insufficient eOra gOra p (reset s₀).1 (Or.inl rfl)⟩

theorem C2_no_index_insufficient_witness :
    ((initState.index = none ∨ initState.docs = [])
      ∧ ask wE wG ⟨"hi", some 3⟩ initState =
          (initState, .answer insufficientAnswer [], ⟨0, 0⟩))
    ∧ ask wE wG ⟨"hi", none⟩ (reset wS2Lit).1 =
        ((reset wS2Lit).1, .answer insufficientAnswer [], ⟨0, 0⟩) :=
  ⟨⟨Or.inl rfl, C2_no_index_insufficient.1 wE wG ⟨"hi", some 3⟩ initState (Or.inl rfl)⟩,
   C2_no_index_insufficient.2 wE wG ⟨"hi", none⟩ wS2Lit⟩

/-- C8: building on a reachable state with an empty store is a trivial
success (`{chunks: 0}` with the no-documents message), no index is in
place (none can exist for an empty reachable store), and a subsequent
`ask` returns the insufficient-information response. -/
theorem C8_empty_store_build (ora : EmbedOracle) (s : ServerState)
    (hreach : Reachable s) (hempty : s.docs = []) :
    build ora s = (s, .ok 0 (some noDocsMessage))
    ∧ s.index = none
    ∧ (build ora s).1.index = none
    ∧ (∀ eOra gOra p,
        ask eOra gOra p (build ora s).1 =
          ((build ora s).1, .answer insufficientAnswer [], ⟨0, 0⟩)) := by
  have hb : build ora s = (s, .ok 0 (some noDocsMessage)) := by
    simp [build, hempty]
  have hidx : s.index = none := by
    rcases h : s.index with _ | idx
    · rfl
    · exact absurd hempty (fun hc => (reachable_inv hreach idx h).1 hc)
  refine ⟨hb, hidx, by rw [hb]; exact hidx, fun eOra gOra p => ?_⟩
  rw [hb]
  exact ask_insufficient eOra gOra p s (Or.inr hempty)

theorem C8_empty_store_build_witness :
    build wEmb initState = (initState, .ok 0 (some noDocsMessage))
    ∧ initState.index = none
    ∧ ask wE wG ⟨"what?", none⟩ (build wEmb initState).1 =
        ((build wEmb initState).1, .answer insufficientAnswer [], ⟨0, 0⟩) :=
  ⟨(C8_empty_store_build wEmb initState .init rfl).1,
   (C8_empty_store_build wEmb initState .init rfl).2.1,
   (C8_empty_store_build wEmb initState .init rfl).2.2.2 wE wG ⟨"what?", none⟩⟩

/-- C9: in a reachable state with an index, an empty or whitespace-only
question yields the distinct no-question status, with no embedding or
generation call. -/
theorem C9_empty_question (eOra : String → Except String (List ℚ))
    (gOra : List (String × String) → Except String String)
    (p : AskPayload) (s : ServerState) (idx : FaissIndex)
    (hreach : Reachable s) (hidx : s.index = some idx)
    (hq : pyStrip p.question = "") :
    ask eOra gOra p s = (s, .noQuestion, ⟨0, 0⟩) := by
  have hdocs : s.docs ≠ [] := (reachable_inv hreach idx hidx).1
  unfold ask
  simp [hidx, hdocs, hq]

theorem C9_empty_question_witness :
    (Reachable wS2Lit ∧ wS2Lit.index = some ⟨[[1]]⟩ ∧ pyStrip "   " = "")
    ∧ ask wE wG ⟨"   ", none⟩ wS2Lit = (wS2Lit, .noQuestion, ⟨0, 0⟩) :=
  ⟨⟨wS2Lit_reachable, rfl, by decide⟩,
   C9_empty_question wE wG ⟨"   ", none⟩ wS2Lit ⟨[[1]]⟩ wS2Lit_reachable rfl (by decide)⟩

/-- C10: in every reachable state a present index implies a non-empty
store; moreover each operation preserves this invariant — upload only
appends records, build installs an index only from a non-empty store,
ask does not mutate the state at all, and reset discards the index
together with the store. -/
theorem C10_index_implies_docs :
    (∀ s, Reachable s → s.index ≠ none → s.docs ≠ [])
    ∧ (∀ libs tok files s, IdxDocs s → IdxDocs (upload libs tok files s).1)
    ∧ (∀ ora s, IdxDocs s → IdxDocs (build ora s).1)
    ∧ (∀ eOra gOra p s, (ask eOra gOra p s).1 = s)
    ∧ (∀ s, (reset s).1.index = none ∧ (reset s).1.docs = []) := by
  refine ⟨?_, ?_, ?_, ?_, ?_⟩
  · intro s hreach hidx
    rcases h : s.index with _ | idx
    · exact absurd h hidx
    · exact (reachable_inv hreach idx h).1
  · intro libs tok files s h hidx
    rw [upload_state] at hidx ⊢
    simp only at hidx ⊢
    obtain ⟨suf, hsuf⟩ := uploadLoop_docs libs tok files s.docs 0
    rw [hsuf]
    intro hc
    exact h hidx (List.append_eq_nil.mp hc).1
  · intro ora s h
    unfold build
    by_cases hd : s.docs = []
    · rw [if_pos hd]; exact h
    · rw [if_neg hd]
      dsimp only
      cases he : embed_texts ora (List.map Prod.snd s.docs) with
      | error e => exact h
      | ok vecs => intro _ ; exact hd
  · exact ask_fst
  · intro s; exact ⟨rfl, rfl⟩

theorem C10_index_implies_docs_witness :
    ((Reachable wS2Lit ∧ wS2Lit.index ≠ none) ∧ wS2Lit.docs ≠ [])
    ∧ (IdxDocs wDocState ∧ IdxDocs (upload wLibs wTok [] wDocState).1)
    ∧ (IdxDocs wDocState ∧ IdxDocs (build wFailEmb wDocState).1)
    ∧ (ask wE wG ⟨"hi", none⟩ wS2Lit).1 = wS2Lit := by
  have hW : IdxDocs wDocState := by
    intro h
    exact absurd rfl h
  refine ⟨⟨⟨wS2Lit_reachable, by simp [wS2Lit]⟩, ?_⟩, ⟨hW, ?_⟩, ⟨hW, ?_⟩, ?_⟩
  · exact C10_index_implies_docs.1 wS2Lit wS2Lit_reachable (by simp [wS2Lit])
  · exact C10_index_implies_docs.2.1 wLibs wTok [] wDocState hW
  · exact C10_index_implies_docs.2.2.1 wFailEmb wDocState hW
  · exact C10_index_implies_docs.2.2.2.1 wE wG ⟨"hi", none⟩ wS2Lit

/-! ### Vector arithmetic lemmas (C4) -/

theorem dot_nil (v : List ℚ) : dot [] v = 0 := rfl

theorem dot_cons_nil (x : ℚ) (xs : List ℚ) : dot (x :: xs) [] = 0 := rfl

theorem dot_cons_cons (x y : ℚ) (xs ys : List ℚ) :
    dot (x :: xs) (y :: ys) = x * y + dot xs ys := rfl

theorem sumsq_nil : sumsq [] = 0 := rfl

theorem sumsq_cons (x : ℚ) (xs : List ℚ) : sumsq (x :: xs) = x * x + sumsq xs := rfl

theorem sumsq_nonneg (v : List ℚ) : 0 ≤ sumsq v := by
  induction v with
  | nil => simp [sumsq_nil]
  | cons x xs ih =>
    rw [sumsq_cons]
    exact add_nonneg (mul_self_nonneg x) ih

theorem sumsq_pos {v : List ℚ} (h : ∃ x ∈ v, x ≠ 0) : 0 < sumsq v := by
  induction v with
  | nil => simp at h
  | cons x xs ih =>
    rw [sumsq_cons]
    obtain ⟨y, hy, hy0⟩ := h
    rcases List.mem_cons.mp hy with rfl | hy'
    · exact add_pos_of_pos_of_nonneg (mul_self_pos.mpr hy0) (sumsq_nonneg xs)
    · exact add_pos_of_nonneg_of_pos (mul_self_nonneg x) (ih ⟨y, hy', hy0⟩)

/-- The sign-preserving square `t * |t|` is strictly monotone. -/
theorem mulAbs_strictMono : StrictMono (fun t : ℝ => t * |t|) := by
  intro s t hst
  dsimp only
  rcases le_or_lt 0 s with hs | hs
  · have ht : 0 < t := lt_of_le_of_lt hs hst
    rw [abs_of_nonneg hs, abs_of_pos ht]
    nlinarith
  · rcases le_or_lt 0 t with ht | ht
    · rw [abs_of_neg hs, abs_of_nonneg ht]
      nlinarith
    · rw [abs_of_neg hs, abs_of_neg ht]
      nlinarith

theorem mulAbs_lt_iff (x y : ℝ) : x * |x| < y * |y| ↔ x < y :=
  mulAbs_strictMono.lt_iff_lt

theorem mulAbs_eq_iff (x y : ℝ) : x * |x| = y * |y| ↔ x = y :=
  mulAbs_strictMono.injective.eq_iff

theorem div_sqrt_mulAbs {b : ℝ} (a : ℝ) (hb : 0 < b) :
    (a / Real.sqrt b) * |a / Real.sqrt b| = a * |a| / b := by
  have hsb : 0 < Real.sqrt b := Real.sqrt_pos.mpr hb
  rw [abs_div, abs_of_pos hsb, div_mul_div_comm, Real.mul_self_sqrt hb.le]

/-- Comparing `a / sqrt b` against `c / sqrt d` (positive `b`, `d`) is
comparing the cross products of sign-preserving squares. -/
theorem div_sqrt_lt_iff_real {a a' b b' : ℝ} (hb : 0 < b) (hb' : 0 < b') :
    a / Real.sqrt b < a' / Real.sqrt b' ↔ a * |a| * b' < a' * |a'| * b := by
  rw [← mulAbs_lt_iff, div_sqrt_mulAbs a hb, div_sqrt_mulAbs a' hb',
    div_lt_div_iff₀ hb hb']

theorem div_sqrt_eq_iff_real {a a' b b' : ℝ} (hb : 0 < b) (hb' : 0 < b') :
    a / Real.sqrt b = a' / Real.sqrt b' ↔ a * |a| * b' = a' * |a'| * b := by
  rw [← mulAbs_eq_iff, div_sqrt_mulAbs a hb, div_sqrt_mulAbs a' hb',
    div_eq_div_iff hb.ne' hb'.ne']

theorem div_sqrt_lt_iff_rat {a a' b b' : ℚ} (hb : 0 < b) (hb' : 0 < b') :
    ((a : ℝ) / Real.sqrt ((b : ℚ) : ℝ) < (a' : ℝ) / Real.sqrt ((b' : ℚ) : ℝ)) ↔
      a * |a| * b' < a' * |a'| * b := by
  rw [div_sqrt_lt_iff_real (by exact_mod_cast hb) (by exact_mod_cast hb')]
  constructor <;> intro h <;> exact_mod_cast h

theorem div_sqrt_eq_iff_rat {a a' b b' : ℚ} (hb : 0 < b) (hb' : 0 < b') :
    ((a : ℝ) / Real.sqrt ((b : ℚ) : ℝ) = (a' : ℝ) / Real.sqrt ((b' : ℚ) : ℝ)) ↔
      a * |a| * b' = a' * |a'| * b := by
  rw [div_sqrt_eq_iff_real (by exact_mod_cast hb) (by exact_mod_cast hb')]
  constructor <;> intro h <;> exact_mod_cast h

/-- `rankLe` decides exactly the descending-cosine, ties-by-position
order, whenever both compared keys have positive denominators. -/
theorem rankLe_iff (q : List ℚ) (stored : List (List ℚ)) (j j' : Nat)
    (hj : 0 < sumsq q * sumsq (stored.getD j []))
    (hj' : 0 < sumsq q * sumsq (stored.getD j' [])) :
    rankLe q stored j j' = true ↔
      (cosSim q (stored.getD j' []) < cosSim q (stored.getD j [])
       ∨ (cosSim q (stored.getD j []) = cosSim q (stored.getD j' []) ∧ j ≤ j')) := by
  simp only [rankLe, scoreKey, Bool.or_eq_true, Bool.and_eq_true, decide_eq_true_eq,
    cosSim]
  rw [div_sqrt_lt_iff_rat hj' hj, div_sqrt_eq_iff_rat hj hj']

theorem rankLe_total (q : List ℚ) (stored : List (List ℚ)) (j j' : Nat) :
    rankLe q stored j j' = true ∨ rankLe q stored j' j = true := by
  simp only [rankLe, Bool.or_eq_true, Bool.and_eq_true, decide_eq_true_eq]
  rcases lt_trichotomy
    ((scoreKey q stored j').1 * |(scoreKey q stored j').1| * (scoreKey q stored j).2)
    ((scoreKey q stored j).1 * |(scoreKey q stored j).1| * (scoreKey q stored j').2)
    with h | h | h
  · exact Or.inl (Or.inl h)
  · rcases Nat.le_total j j' with hn | hn
    · exact Or.inl (Or.inr ⟨h.symm, hn⟩)
    · exact Or.inr (Or.inr ⟨h, hn⟩)
  · exact Or.inr (Or.inl h)

theorem rankLe_trans (q : List ℚ) (stored : List (List ℚ)) (x y z : Nat)
    (hx : 0 < sumsq q * sumsq (stored.getD x []))
    (hy : 0 < sumsq q * sumsq (stored.getD y []))
    (hz : 0 < sumsq q * sumsq (stored.getD z []))
    (h1 : rankLe q stored x y = true) (h2 : rankLe q stored y z = true) :
    rankLe q stored x z = true := by
  rw [rankLe_iff q stored x y hx hy] at h1
  rw [rankLe_iff q stored y z hy hz] at h2
  rw [rankLe_iff q stored x z hx hz]
  rcases h1 with h1 | ⟨h1e, h1n⟩
  · rcases h2 with h2 | ⟨h2e, h2n⟩
    · exact Or.inl (lt_trans h2 h1)
    · exact Or.inl (h2e ▸ h1)
  · rcases h2 with h2 | ⟨h2e, h2n⟩
    · exact Or.inl (h1e ▸ h2)
    · exact Or.inr ⟨h1e.trans h2e, le_trans h1n h2n⟩

/-! ### Insertion sort lemmas -/

theorem insertLe_perm {α : Type} (le : α → α → Bool) (a : α) (l : List α) :
    List.Perm (insertLe le a l) (a :: l) := by
  induction l with
  | nil => exact List.Perm.refl _
  | cons b l ih =>
    simp only [insertLe]
    cases h : le a b
    · simp only [Bool.false_eq_true, if_false]
      exact (ih.cons b).trans (List.Perm.swap a b l)
    · simp only [if_true]
      exact List.Perm.refl _

theorem insSort_perm {α : Type} (le : α → α → Bool) (l : List α) :
    List.Perm (insSort le l) l := by
  induction l with
  | nil => exact List.Perm.refl _
  | cons a l ih =>
    simp only [insSort]
    exact (insertLe_perm le a (insSort le l)).trans (ih.cons a)

theorem insertLe_pairwise {α : Type} (le : α → α → Bool) (a : α) (l : List α)
    (total : ∀ x ∈ l, le a x = true ∨ le x a = true)
    (htrans : ∀ x ∈ a :: l, ∀ y ∈ a :: l, ∀ z ∈ a :: l,
      le x y = true → le y z = true → le x z = true)
    (hl : l.Pairwise (fun x y => le x y = true)) :
    (insertLe le a l).Pairwise (fun x y => le x y = true) := by
  induction l with
  | nil => simp [insertLe]
  | cons b l ih =>
    rw [List.pairwise_cons] at hl
    obtain ⟨hb, hl'⟩ := hl
    simp only [insertLe]
    cases h : le a b
    · simp only [Bool.false_eq_true, if_false]
      rw [List.pairwise_cons]
      refine ⟨?_, ?_⟩
      · intro x hx
        have hx' : x = a ∨ x ∈ l := by
          have := (insertLe_perm le a l).mem_iff.mp hx
          simpa using this
        rcases hx' with rfl | hx'
        · rcases total b (List.mem_cons_self b l) with hab | hba
          · rw [hab] at h; exact absurd h (by simp)
          · exact hba
        · exact hb x hx'
      · refine ih ?_ ?_ hl'
        · intro x hx
          exact total x (List.mem_cons_of_mem b hx)
        · intro x hx y hy z hz
          refine htrans x ?_ y ?_ z ?_
          · rcases List.mem_cons.mp hx with rfl | hx'
            · exact List.mem_cons_self _ _
            · exact List.mem_cons_of_mem _ (List.mem_cons_of_mem b hx')
          · rcases List.mem_cons.mp hy with rfl | hy'
            · exact List.mem_cons_self _ _
            · exact List.mem_cons_of_mem _ (List.mem_cons_of_mem b hy')
          · rcases List.mem_cons.mp hz with rfl | hz'
            · exact List.mem_cons_self _ _
            · exact List.mem_cons_of_mem _ (List.mem_cons_of_mem b hz')
    · simp only [if_true]
      rw [List.pairwise_cons]
      refine ⟨?_, ?_⟩
      · intro x hx
        rcases List.mem_cons.mp hx with rfl | hx'
        · exact h
        · refine htrans a (List.mem_cons_self _ _) b
            (List.mem_cons_of_mem _ (List.mem_cons_self b l)) x
            (List.mem_cons_of_mem _ (List.mem_cons_of_mem b hx')) h (hb x hx')
      · rw [List.pairwise_cons]
        exact ⟨hb, hl'⟩

theorem insSort_pairwise {α : Type} (le : α → α → Bool) (l : List α)
    (total : ∀ x ∈ l, ∀ y ∈ l, le x y = true ∨ le y x = true)
    (htrans : ∀ x ∈ l, ∀ y ∈ l, ∀ z ∈ l,
      le x y = true → le y z = true → le x z = true) :
    (insSort le l).Pairwise (fun x y => le x y = true) := by
  induction l with
  | nil => simp [insSort]
  | cons a l ih =>
    simp only [insSort]
    have hmem : ∀ x, x ∈ insSort le l → x ∈ l := fun x hx =>
      (insSort_perm le l).mem_iff.mp hx
    refine insertLe_pairwise le a (insSort le l) ?_ ?_ ?_
    · intro x hx
      exact total a (List.mem_cons_self a l) x (List.mem_cons_of_mem a (hmem x hx))
    · intro x hx y hy z hz
      have hx' : x ∈ a :: l := by
        rcases List.mem_cons.mp hx with rfl | hx'
        · exact List.mem_cons_self _ _
        · exact List.mem_cons_of_mem a (hmem x hx')
      have hy' : y ∈ a :: l := by
        rcases List.mem_cons.mp hy with rfl | hy'
        · exact List.mem_cons_self _ _
        · exact List.mem_cons_of_mem a (hmem y hy')
      have hz' : z ∈ a :: l := by
        rcases List.mem_cons.mp hz with rfl | hz'
        · exact List.mem_cons_self _ _
        · exact List.mem_cons_of_mem a (hmem z hz')
      exact htrans x hx' y hy' z hz'
    · refine ih ?_ ?_
      · intro x hx y hy
        exact total x (List.mem_cons_of_mem a hx) y (List.mem_cons_of_mem a hy)
      · intro x hx y hy z hz
        exact htrans x (List.mem_cons_of_mem a hx) y (List.mem_cons_of_mem a hy) z
          (List.mem_cons_of_mem a hz)

/-! ### Normalized inner product equals cosine similarity -/

theorem dotR_scale (c d : ℝ) : ∀ (q v : List ℚ),
    dotR (q.map (fun x : ℚ => (x : ℝ) * c)) (v.map (fun y : ℚ => (y : ℝ) * d)) =
      ((dot q v : ℚ) : ℝ) * (c * d) := by
  intro q
  induction q with
  | nil =>
    intro v
    simp [dotR, dot_nil]
  | cons x xs ih =>
    intro v
    cases v with
    | nil => simp [dotR, dot_cons_nil]
    | cons y ys =>
      simp only [List.map_cons, dotR, dot_cons_cons]
      rw [ih ys]
      push_cast
      ring

/-- The inner product of the two unit-normalized vectors is the cosine
similarity of the raw vectors. -/
theorem dotR_normalize (q v : List ℚ) (hq : 0 < sumsq q) (hv : 0 < sumsq v) :
    dotR (normalize q) (normalize v) = cosSim q v := by
  have hqR : (0 : ℝ) < ((sumsq q : ℚ) : ℝ) := by exact_mod_cast hq
  have hvR : (0 : ℝ) < ((sumsq v : ℚ) : ℝ) := by exact_mod_cast hv
  unfold normalize
  simp only [div_eq_mul_inv]
  rw [dotR_scale]
  unfold cosSim
  rw [show ((sumsq q * sumsq v : ℚ) : ℝ) = ((sumsq q : ℚ) : ℝ) * ((sumsq v : ℚ) : ℝ) by
    push_cast; ring]
  rw [Real.sqrt_mul hqR.le, div_eq_mul_inv, mul_inv]

theorem key_pos {q : List ℚ} {stored : List (List ℚ)}
    (hq : ∃ x ∈ q, x ≠ 0) (hv : ∀ v ∈ stored, ∃ x ∈ v, x ≠ 0)
    {j : Nat} (hj : j < stored.length) :
    0 < sumsq q * sumsq (stored.getD j []) := by
  have hmem : stored.getD j [] ∈ stored := by
    rw [List.getD_eq_getElem stored [] hj]
    exact List.getElem_mem hj
  exact mul_pos (sumsq_pos hq) (sumsq_pos (hv _ hmem))

theorem faissSearch_length (stored : List (List ℚ)) (q : List ℚ) (k : Nat) :
    (faissSearch stored q k).length = k := by
  have hlen : (insSort (rankLe q stored) (List.range stored.length)).length =
      stored.length :=
    (insSort_perm (rankLe q stored) (List.range stored.length)).length_eq.trans
      (List.length_range stored.length)
  simp only [faissSearch, List.length_append, List.length_map, List.length_take,
    List.length_replicate, hlen]
  omega

theorem faissSearch_mem {stored : List (List ℚ)} {q : List ℚ} {k : Nat} {j : Int}
    (hj : j ∈ faissSearch stored q k) :
    j = -1 ∨ (0 ≤ j ∧ j < (stored.length : Int)) := by
  rcases List.mem_append.mp hj with hj | hj
  · obtain ⟨p, hp, rfl⟩ := List.mem_map.mp hj
    have hp' : p ∈ insSort (rankLe q stored) (List.range stored.length) :=
      List.take_subset k _ hp
    have hpn : p < stored.length := by
      have := (insSort_perm (rankLe q stored) (List.range stored.length)).mem_iff.mp hp'
      simpa [List.mem_range] using this
    exact Or.inr ⟨Int.ofNat_nonneg p, by exact_mod_cast hpn⟩
  · exact Or.inl (List.eq_of_mem_replicate hj)

/-- C4: on an index built over non-zero vectors, `search` with
`1 ≤ top_k ≤ ntotal` returns the positions of the `top_k` stored vectors
of highest cosine similarity to the query (equivalently, highest inner
product against the unit-normalized stored vectors, after normalizing the
query), in descending score order with ties broken by lowest stored
position. -/
theorem C4_search_ranking (stored : List (List ℚ)) (q : List ℚ) (k : Nat)
    (_hk1 : 1 ≤ k) (hk2 : k ≤ stored.length)
    (hq : ∃ x ∈ q, x ≠ 0) (hv : ∀ v ∈ stored, ∃ x ∈ v, x ≠ 0) :
    ∃ ps : List Nat,
      search (build_faiss stored) q k = ps.map (fun j : Nat => (j : Int))
      ∧ ps.length = k
      ∧ (∀ p ∈ ps, p < stored.length)
      ∧ ps.Pairwise (fun p p' =>
          cosSim q (stored.getD p' []) < cosSim q (stored.getD p [])
          ∨ (cosSim q (stored.getD p []) = cosSim q (stored.getD p' []) ∧ p < p'))
      ∧ (∀ p ∈ ps, ∀ p' < stored.length, p' ∉ ps →
          cosSim q (stored.getD p' []) < cosSim q (stored.getD p [])
          ∨ (cosSim q (stored.getD p []) = cosSim q (stored.getD p' []) ∧ p < p'))
      ∧ (∀ j < stored.length,
          dotR (normalize q) (normalize (stored.getD j [])) =
            cosSim q (stored.getD j [])) := by
  have hperm := insSort_perm (rankLe q stored) (List.range stored.length)
  have hmemiff : ∀ p, p ∈ insSort (rankLe q stored) (List.range stored.length) ↔
      p < stored.length := by
    intro p
    rw [hperm.mem_iff, List.mem_range]
  have hkeypos : ∀ p ∈ List.range stored.length,
      0 < sumsq q * sumsq (stored.getD p []) := fun p hp =>
    key_pos hq hv (List.mem_range.mp hp)
  have hpw : (insSort (rankLe q stored) (List.range stored.length)).Pairwise
      (fun x y => rankLe q stored x y = true) :=
    insSort_pairwise (rankLe q stored) (List.range stored.length)
      (fun x _ y _ => rankLe_total q stored x y)
      (fun x hx y hy z hz h1 h2 => rankLe_trans q stored x y z
        (hkeypos x hx) (hkeypos y hy) (hkeypos z hz) h1 h2)
  have hnodup : (insSort (rankLe q stored) (List.range stored.length)).Nodup :=
    hperm.nodup_iff.mpr (List.nodup_range stored.length)
  have hpwsem : (insSort (rankLe q stored) (List.range stored.length)).Pairwise
      (fun p p' =>
        cosSim q (stored.getD p' []) < cosSim q (stored.getD p [])
        ∨ (cosSim q (stored.getD p []) = cosSim q (stored.getD p' []) ∧ p < p')) := by
    refine List.Pairwise.imp_of_mem ?_ (hpw.and hnodup)
    intro a b ha hb hab
    obtain ⟨hle, hne⟩ := hab
    have ha' := (hmemiff a).mp ha
    have hb' := (hmemiff b).mp hb
    rcases (rankLe_iff q stored a b (key_pos hq hv ha') (key_pos hq hv hb')).mp hle
      with h | ⟨he, hn⟩
    · exact Or.inl h
    · exact Or.inr ⟨he, lt_of_le_of_ne hn hne⟩
  have hlenranked : (insSort (rankLe q stored) (List.range stored.length)).length =
      stored.length :=
    hperm.length_eq.trans (List.length_range stored.length)
  refine ⟨(insSort (rankLe q stored) (List.range stored.length)).take k, ?_, ?_, ?_, ?_, ?_, ?_⟩
  · show faissSearch stored q k = _
    have h0 : k - stored.length = 0 := by omega
    simp [faissSearch, h0]
  · rw [List.length_take, hlenranked]
    omega
  · intro p hp
    exact (hmemiff p).mp (List.take_subset k _ hp)
  · exact List.Pairwise.sublist (List.take_sublist k _) hpwsem
  · intro p hp p' hp'n hp'notin
    have hsplit : (insSort (rankLe q stored) (List.range stored.length)).take k ++
        (insSort (rankLe q stored) (List.range stored.length)).drop k =
        insSort (rankLe q stored) (List.range stored.length) :=
      List.take_append_drop k _
    have hpw2 := hpwsem
    rw [← hsplit] at hpw2
    have hcross := (List.pairwise_append.mp hpw2).2.2
    have hp'mem : p' ∈ (insSort (rankLe q stored) (List.range stored.length)).take k ++
        (insSort (rankLe q stored) (List.range stored.length)).drop k := by
      rw [hsplit]
      exact (hmemiff p').mpr hp'n
    rcases List.mem_append.mp hp'mem with h | h
    · exact absurd h hp'notin
    · exact hcross p hp p' h
  · intro j hj
    have hmem : stored.getD j [] ∈ stored := by
      rw [List.getD_eq_getElem stored [] hj]
      exact List.getElem_mem hj
    exact dotR_normalize q _ (sumsq_pos hq) (sumsq_pos (hv _ hmem))

theorem C4_search_ranking_witness :
    (1 ≤ 1 ∧ 1 ≤ ([[(1 : ℚ)], [2]] : List (List ℚ)).length
      ∧ (∃ x ∈ [(1 : ℚ)], x ≠ 0)
      ∧ (∀ v ∈ ([[(1 : ℚ)], [2]] : List (List ℚ)), ∃ x ∈ v, x ≠ 0))
    ∧ ∃ ps : List Nat,
      search (build_faiss [[(1 : ℚ)], [2]]) [(1 : ℚ)] 1 = ps.map (fun j : Nat => (j : Int))
      ∧ ps.length = 1 ∧ (∀ p ∈ ps, p < 2) := by
  refine ⟨⟨le_rfl, by decide, by decide, by decide⟩, ?_⟩
  obtain ⟨ps, h1, h2, h3, -⟩ :=
    C4_search_ranking [[(1 : ℚ)], [2]] [(1 : ℚ)] 1 le_rfl (by decide) (by decide) (by decide)
  exact ⟨ps, h1, h2, fun p hp => h3 p hp⟩

/-! ### `ask` evaluation lemmas (C1, C6) -/

theorem pyIndex_some {α : Type} {l : List α} (hne : l ≠ []) {j : Int}
    (hj : j = -1 ∨ (0 ≤ j ∧ j < (l.length : Int))) : ∃ a, pyIndex l j = some a := by
  have hlen : 0 < l.length := List.length_pos.mpr hne
  simp only [pyIndex]
  rcases hj with rfl | ⟨h0, hlt⟩
  · have hi : (if (-1 : Int) < 0 then (l.length : Int) + -1 else -1) =
        (l.length : Int) - 1 := by
      rw [if_pos (by norm_num)]
      ring
    rw [hi, if_neg (by omega)]
    have hlt' : ((l.length : Int) - 1).toNat < l.length := by omega
    exact ⟨l.get ⟨_, hlt'⟩, List.get?_eq_get hlt'⟩
  · have hi : (if j < 0 then (l.length : Int) + j else j) = j := if_neg (by omega)
    rw [hi, if_neg (by omega)]
    have hlt' : j.toNat < l.length := by omega
    exact ⟨l.get ⟨_, hlt'⟩, List.get?_eq_get hlt'⟩

theorem pyIndex_mem {α : Type} {l : List α} {j : Int} {a : α}
    (h : pyIndex l j = some a) : a ∈ l := by
  simp only [pyIndex] at h
  split at h
  · split at h
    · exact Option.noConfusion h
    · exact List.get?_mem h
  · exact List.get?_mem h

theorem optList_some {α β : Type} {f : α → Option β} :
    ∀ {l : List α}, (∀ a ∈ l, ∃ b, f a = some b) →
      ∃ bs, optList f l = some bs ∧ bs.length = l.length ∧
        (∀ b ∈ bs, ∃ a ∈ l, f a = some b) := by
  intro l
  induction l with
  | nil => intro _; exact ⟨[], rfl, rfl, by simp⟩
  | cons a l ih =>
    intro h
    obtain ⟨b, hb⟩ := h a (List.mem_cons_self a l)
    obtain ⟨bs, hbs, hlen, hmem⟩ := ih (fun x hx => h x (List.mem_cons_of_mem a hx))
    refine ⟨b :: bs, ?_, by simp [hlen], ?_⟩
    · simp only [optList, hb, hbs]
    · intro c hc
      rcases List.mem_cons.mp hc with rfl | hc'
      · exact ⟨a, List.mem_cons_self a l, hb⟩
      · obtain ⟨x, hx, hfx⟩ := hmem c hc'
        exact ⟨x, List.mem_cons_of_mem a hx, hfx⟩

theorem sourcesOf_length (hits : List (String × String)) :
    (sourcesOf hits).length = hits.length := by
  simp [sourcesOf]

theorem sourcesOf_getD (hits : List (String × String)) (i : Nat) (h : i < hits.length) :
    (sourcesOf hits).getD i [] =
      [("id", Val.int ((i : Int) + 1)),
       ("file", Val.str (hits.getD i ("", "")).1),
       ("preview", Val.str (pyTake (hits.getD i ("", "")).2 300))] := by
  have hlen : i < (sourcesOf hits).length := by
    rw [sourcesOf_length]
    exact h
  rw [List.getD_eq_getElem _ _ hlen, List.getD_eq_getElem _ _ h]
  simp [sourcesOf]

theorem effTopK_bounds (req : Option Int) (n : Nat) (hn : 1 ≤ n) :
    1 ≤ effTopK req n ∧ effTopK req n ≤ (n : Int) := by
  unfold effTopK
  refine ⟨le_max_left 1 _, ?_⟩
  exact max_le (by exact_mod_cast hn) (min_le_right _ _)

theorem effTopK_default (n : Nat) (hn : 1 ≤ n) :
    effTopK none n = min TOP_K_DEFAULT (n : Int) := by
  unfold effTopK
  rw [max_eq_right]
  exact le_min (by norm_num [TOP_K_DEFAULT]) (by exact_mod_cast hn)

theorem effTopK_large {t : Int} {n : Nat} (hn : 1 ≤ n) (ht : (n : Int) < t) :
    effTopK (some t) n = (n : Int) := by
  unfold effTopK
  have ht0 : ¬ t = 0 := by omega
  simp only [ht0, if_false]
  rw [min_eq_right (le_of_lt ht), max_eq_right (by exact_mod_cast hn)]

/-- The main branch of `ask`: in a reachable indexed state, with a
non-empty question and succeeding collaborators, `ask` answers with the
source list built from the hits that the index search returned. -/
theorem ask_main (eOra : String → Except String (List ℚ))
    (gOra : List (String × String) → Except String String)
    (p : AskPayload) (s : ServerState) (idx : FaissIndex) (ans : String) (qv : List ℚ)
    (hreach : Reachable s) (hidx : s.index = some idx)
    (hquest : pyStrip p.question ≠ "")
    (he : eOra p.question = .ok qv)
    (hg : ∀ msgs, gOra msgs = .ok ans) :
    ∃ hits : List (String × String),
      ask eOra gOra p s = (s, .answer ans (sourcesOf hits), ⟨1, 1⟩)
      ∧ hits.length = (effTopK p.top_k s.docs.length).toNat
      ∧ (∀ h ∈ hits, h ∈ s.docs) := by
  obtain ⟨hdocs, hv1, hvle⟩ := reachable_inv hreach idx hidx
  have hImem : ∀ j ∈ search idx qv (effTopK p.top_k s.docs.length).toNat,
      j = -1 ∨ (0 ≤ j ∧ j < (s.docs.length : Int)) := by
    intro j hj
    rcases faissSearch_mem (show j ∈ faissSearch idx.vecs qv _ from hj) with h | ⟨h0, hlt⟩
    · exact Or.inl h
    · exact Or.inr ⟨h0, lt_of_lt_of_le hlt (by exact_mod_cast hvle)⟩
  obtain ⟨hits, hhits, hhitslen, hhitsmem⟩ :=
    optList_some (f := pyIndex s.docs)
      (l := search idx qv (effTopK p.top_k s.docs.length).toNat)
      (fun j hj => pyIndex_some hdocs (hImem j hj))
  refine ⟨hits, ?_, ?_, ?_⟩
  · unfold ask
    simp only [hidx]
    rw [if_neg hdocs, if_neg hquest]
    simp only [he]
    simp only [hhits, hg]
  · rw [hhitslen]
    unfold search
    rw [faissSearch_length]
  · intro h hh
    obtain ⟨a, _, ha⟩ := hhitsmem h hh
    exact pyIndex_mem ha

/-- C1: in a reachable indexed state with `n ≥ 1` chunks, the effective
`top_k` is always clamped into `[1, n]` (when unspecified it defaults to 6
before clamping), and an `ask` whose requested `top_k` exceeds `n` (with
non-empty question and succeeding collaborators) returns a normal answer
whose source list has exactly `n` entries. -/
theorem C1_topk_clamping (eOra : String → Except String (List ℚ))
    (gOra : List (String × String) → Except String String)
    (p : AskPayload) (s : ServerState) (idx : FaissIndex) (ans : String)
    (qv : List ℚ) (t : Int)
    (hreach : Reachable s) (hidx : s.index = some idx)
    (hquest : pyStrip p.question ≠ "")
    (he : eOra p.question = .ok qv)
    (hg : ∀ msgs, gOra msgs = .ok ans)
    (ht : p.top_k = some t) (htn : (s.docs.length : Int) < t) :
    (∀ req : Option Int,
      1 ≤ effTopK req s.docs.length ∧ effTopK req s.docs.length ≤ (s.docs.length : Int))
    ∧ effTopK none s.docs.length = min TOP_K_DEFAULT (s.docs.length : Int)
    ∧ effTopK p.top_k s.docs.length = (s.docs.length : Int)
    ∧ ∃ srcs, ask eOra gOra p s = (s, .answer ans srcs, ⟨1, 1⟩)
        ∧ srcs.length = s.docs.length := by
  have hdocs : s.docs ≠ [] := (reachable_inv hreach idx hidx).1
  have hn : 1 ≤ s.docs.length := List.length_pos.mpr hdocs
  have hkeff : effTopK p.top_k s.docs.length = (s.docs.length : Int) := by
    rw [ht]
    exact effTopK_large hn htn
  obtain ⟨hits, hask, hlen, -⟩ :=
    ask_main eOra gOra p s idx ans qv hreach hidx hquest he hg
  refine ⟨fun req => effTopK_bounds req _ hn, effTopK_default _ hn, hkeff,
    sourcesOf hits, hask, ?_⟩
  rw [sourcesOf_length, hlen, hkeff]
  omega

theorem C1_topk_clamping_witness :
    (Reachable wS2Lit ∧ wS2Lit.index = some ⟨[[1]]⟩ ∧ pyStrip "hi" ≠ ""
      ∧ wE "hi" = .ok [1] ∧ (1 : Int) < 9)
    ∧ effTopK (some 9) wS2Lit.docs.length = (wS2Lit.docs.length : Int)
    ∧ ∃ srcs, ask wE wG ⟨"hi", some 9⟩ wS2Lit = (wS2Lit, .answer "ok" srcs, ⟨1, 1⟩)
        ∧ srcs.length = wS2Lit.docs.length := by
  have h := C1_topk_clamping wE wG ⟨"hi", some 9⟩ wS2Lit ⟨[[1]]⟩ "ok" [1] 9
    wS2Lit_reachable rfl (by decide) rfl (fun _ => rfl) rfl (by decide)
  exact ⟨⟨wS2Lit_reachable, rfl, by decide, rfl, by decide⟩, h.2.2.1, h.2.2.2⟩

/-! ### C6: shape of the source entries -/

/-- C6 counterexample: the claim says every returned source entry has the
key shape `{id, source, preview}`; but on a reachable indexed state
(one uploaded and built chunk) a successful `ask` returns a non-empty
source list whose every entry has keys `["id", "file", "preview"]` — the
second key is `"file"`, not `"source"`. -/
theorem C6_counterexample :
    Reachable wS2Lit
    ∧ (match (ask wE wG ⟨"hi", none⟩ wS2Lit).2.1 with
       | .answer _ srcs => srcs
       | _ => []) ≠ []
    ∧ ∀ entry ∈ (match (ask wE wG ⟨"hi", none⟩ wS2Lit).2.1 with
       | .answer _ srcs => srcs
       | _ => []), entry.map Prod.fst ≠ specSourceKeys :=
  ⟨wS2Lit_reachable, by decide, by decide⟩

/-- C6 amended: on every reachable indexed state, a successful `ask`
returns one source entry per retrieved hit, the `i`-th being exactly
`{"id": i + 1, "file": <originating document id>, "preview": <first 300
characters of the chunk text>}` — the keys are `id`/`file`/`preview`, with
the spec's `source` field stored under the key `"file"`; each hit is a
record of the Document Store. -/
theorem C6_sources_shape (eOra : String → Except String (List ℚ))
    (gOra : List (String × String) → Except String String)
    (p : AskPayload) (s : ServerState) (idx : FaissIndex) (ans : String) (qv : List ℚ)
    (hreach : Reachable s) (hidx : s.index = some idx)
    (hquest : pyStrip p.question ≠ "")
    (he : eOra p.question = .ok qv)
    (hg : ∀ msgs, gOra msgs = .ok ans) :
    ∃ hits : List (String × String),
      ask eOra gOra p s = (s, .answer ans (sourcesOf hits), ⟨1, 1⟩)
      ∧ (∀ h ∈ hits, h ∈ s.docs)
      ∧ (sourcesOf hits).length = hits.length
      ∧ (∀ i, i < hits.length →
          (sourcesOf hits).getD i [] =
            [("id", Val.int ((i : Int) + 1)),
             ("file", Val.str (hits.getD i ("", "")).1),
             ("preview", Val.str (pyTake (hits.getD i ("", "")).2 300))]) := by
  obtain ⟨hits, hask, hlen, hmem⟩ :=
    ask_main eOra gOra p s idx ans qv hreach hidx hquest he hg
  exact ⟨hits, hask, hmem, sourcesOf_length hits, fun i hi => sourcesOf_getD hits i hi⟩

theorem C6_sources_shape_witness :
    (Reachable wS2Lit ∧ wS2Lit.index = some ⟨[[1]]⟩ ∧ pyStrip "hi" ≠ ""
      ∧ wE "hi" = .ok [1])
    ∧ ∃ hits : List (String × String),
      ask wE wG ⟨"hi", none⟩ wS2Lit = (wS2Lit, .answer "ok" (sourcesOf hits), ⟨1, 1⟩)
      ∧ (∀ h ∈ hits, h ∈ wS2Lit.docs)
      ∧ (∀ i, i < hits.length →
          (sourcesOf hits).getD i [] =
            [("id", Val.int ((i : Int) + 1)),
             ("file", Val.str (hits.getD i ("", "")).1),
             ("preview", Val.str (pyTake (hits.getD i ("", "")).2 300))]) := by
  obtain ⟨hits, hask, hmem, -, hshape⟩ :=
    C6_sources_shape wE wG ⟨"hi", none⟩ wS2Lit ⟨[[1]]⟩ "ok" [1]
      wS2Lit_reachable rfl (by decide) rfl (fun _ => rfl)
  exact ⟨⟨wS2Lit_reachable, rfl, by decide, rfl⟩, hits, hask, hmem, hshape⟩

end RAG
